import Mathlib

/-
Verification of the jsonctmctree repository against its specification.

The development shallowly embeds the Python sources in Lean 4:

* jsonctmctree/pyexp/_onenormest.py : the Higham-Tisseur block 1-norm
  estimator (namespace OneNormEst).  Floating point numbers are modelled
  by rationals, the random +-1 resampling by an explicit boolean oracle,
  and the two while-loops that are only guaranteed to terminate
  probabilistically receive an explicit fuel argument; every raised
  ValueError becomes an Except.error value.
* jsonctmctree/common_likelihood.py and jsonctmctree/expect.py : the
  tree dynamic programs (namespace CtmcTree).  Trees are a rose-tree
  datatype, per-node arrays of shape (nstates, nsites) are functions
  from two naturals to rationals, and the matrix-exponential evaluators
  (which live in modules outside the sources under verification) are
  abstract function parameters.
-/

namespace OneNormEst

/-- Dense numpy-style matrices over the rationals; the relevant
dimensions are always passed explicitly, as with numpy shapes. -/
abbrev Mat : Type := ℕ → ℕ → ℚ

/-- Column 1-norm: the absolute sum of column j, rows 0..n-1
(np.sum(np.abs(Y), axis=0) at one column). -/
def colOneNorm (n : ℕ) (Y : Mat) (j : ℕ) : ℚ :=
  ∑ i in Finset.range n, |Y i j|

/-- Matrix-block product A.dot(X) for A with n columns. -/
def matMul (n : ℕ) (A X : Mat) : Mat :=
  fun i j => ∑ k in Finset.range n, A i k * X k j

/-- Conjugate transpose A.H of a rational (hence real) matrix. -/
def adjointMat (A : Mat) : Mat := fun i j => A j i

/-- The identity matrix np.identity(n) (total on naturals; entries with
index at least n are never consulted under the explicit dimensions). -/
def identityMat : Mat := fun i j => if i = j then 1 else 0

/-- Maximum of a list of rationals, with 0 for the empty list.  On the
nonempty lists of nonnegative numbers produced by the estimator this
agrees with np.max. -/
def listMax (l : List ℚ) : ℚ := l.foldl max 0

/-- Helper for np.argmax: scans the remaining entries, carrying the
current index, the best index and the best value; a strict improvement
is required to move, so the first maximizer wins, as with np.argmax. -/
def argmaxPair : ℕ → ℕ × ℚ → List ℚ → ℕ × ℚ
  | _, p, [] => p
  | i, (b, v), x :: xs =>
      if v < x then argmaxPair (i + 1) (i, x) xs
      else argmaxPair (i + 1) (b, v) xs

/-- Index of the first maximal entry of a list (np.argmax).  The empty
case (on which numpy raises) is guarded separately by the callers. -/
def npArgmax : List ℚ → ℕ
  | [] => 0
  | x :: xs => (argmaxPair 1 (0, x) xs).1

/-- Exact 1-norm of an n-by-n matrix: the maximum absolute column sum. -/
def exactOneNorm (n : ℕ) (A : Mat) : ℚ :=
  listMax ((List.range n).map (colOneNorm n A))

theorem listMax_nonneg (l : List ℚ) : 0 ≤ listMax l := by
  have h : ∀ (v : ℚ) (l : List ℚ), v ≤ l.foldl max v := by
    intro v l
    induction l generalizing v with
    | nil => exact le_refl v
    | cons x xs ih => exact le_trans (le_max_left v x) (ih (max v x))
  exact h 0 l

theorem foldl_max_le (l : List ℚ) (b : ℚ) :
    ∀ v, v ≤ b → (∀ x ∈ l, x ≤ b) → l.foldl max v ≤ b := by
  induction l with
  | nil => intro v hv _; exact hv
  | cons x xs ih =>
      intro v hv hall
      exact ih (max v x) (max_le hv (hall x (List.mem_cons_self x xs)))
        (fun y hy => hall y (List.mem_cons_of_mem x hy))

theorem listMax_le {l : List ℚ} {b : ℚ} (hb : 0 ≤ b)
    (h : ∀ x ∈ l, x ≤ b) : listMax l ≤ b :=
  foldl_max_le l b 0 hb h

theorem le_foldl_max (l : List ℚ) : ∀ v x, x ∈ l → x ≤ l.foldl max v := by
  induction l with
  | nil => intro v x hx; exact absurd hx (List.not_mem_nil x)
  | cons y ys ih =>
      intro v x hx
      rcases List.mem_cons.mp hx with h | h
      · subst h
        calc x ≤ max v x := le_max_right v x
        _ ≤ ys.foldl max (max v x) := by
              have h' : ∀ (w : ℚ) (l : List ℚ), w ≤ l.foldl max w := by
                intro w l
                induction l generalizing w with
                | nil => exact le_refl w
                | cons z zs ihz => exact le_trans (le_max_left w z) (ihz (max w z))
              exact h' (max v x) ys
      · exact ih (max v y) x h

theorem le_listMax {l : List ℚ} {x : ℚ} (hx : x ∈ l) : x ≤ listMax l :=
  le_foldl_max l 0 x hx

theorem argmaxPair_snd (xs : List ℚ) :
    ∀ i b v, (argmaxPair i (b, v) xs).2 = xs.foldl max v := by
  induction xs with
  | nil => intro i b v; rfl
  | cons x xs ih =>
      intro i b v
      by_cases h : v < x
      · simp only [argmaxPair, if_pos h, ih, List.foldl_cons,
          max_eq_right (le_of_lt h)]
      · simp only [argmaxPair, if_neg h, ih, List.foldl_cons,
          max_eq_left (le_of_not_lt h)]

theorem argmaxPair_cons (i b : ℕ) (v x : ℚ) (xs : List ℚ) :
    argmaxPair i (b, v) (x :: xs)
      = if v < x then argmaxPair (i + 1) (i, x) xs
        else argmaxPair (i + 1) (b, v) xs := rfl

theorem argmaxPair_range' (f : ℕ → ℚ) :
    ∀ (len s b : ℕ),
      (argmaxPair s (b, f b) ((List.range' s len).map f)).2
        = f (argmaxPair s (b, f b) ((List.range' s len).map f)).1
      ∧ (argmaxPair s (b, f b) ((List.range' s len).map f)).1
          ∈ b :: List.range' s len := by
  intro len
  induction len with
  | zero => intro s b; exact ⟨rfl, List.mem_cons_self b []⟩
  | succ m ih =>
      intro s b
      rw [List.range'_succ s m 1, List.map_cons, argmaxPair_cons]
      by_cases h : f b < f s
      · rw [if_pos h]
        obtain ⟨h1, h2⟩ := ih (s + 1) s
        refine ⟨h1, ?_⟩
        rcases List.mem_cons.mp h2 with h' | h'
        · rw [h']; exact List.mem_cons_of_mem b (List.mem_cons_self s _)
        · exact List.mem_cons_of_mem b (List.mem_cons_of_mem s h')
      · rw [if_neg h]
        obtain ⟨h1, h2⟩ := ih (s + 1) b
        refine ⟨h1, ?_⟩
        rcases List.mem_cons.mp h2 with h' | h'
        · rw [h']; exact List.mem_cons_self b _
        · exact List.mem_cons_of_mem b (List.mem_cons_of_mem s h')

theorem colOneNorm_nonneg (n : ℕ) (A : Mat) (j : ℕ) : 0 ≤ colOneNorm n A j :=
  Finset.sum_nonneg fun i _ => abs_nonneg (A i j)

theorem exactOneNorm_nonneg (n : ℕ) (A : Mat) : 0 ≤ exactOneNorm n A :=
  listMax_nonneg _

theorem colOneNorm_le_exact {n j : ℕ} (A : Mat) (hj : j < n) :
    colOneNorm n A j ≤ exactOneNorm n A :=
  le_listMax (List.mem_map.mpr ⟨j, List.mem_range.mpr hj, rfl⟩)

/-- Materializing the operator against the identity recovers its entries:
A.dot(np.identity(n)) agrees with A on the first n columns. -/
theorem matMul_identity (n : ℕ) (A : Mat) (i j : ℕ) (hj : j < n) :
    matMul n A identityMat i j = A i j := by
  unfold matMul identityMat
  have : ∀ k, A i k * (if k = j then (1 : ℚ) else 0)
      = if k = j then A i k else 0 := by
    intro k; by_cases h : k = j <;> simp [h]
  rw [Finset.sum_congr rfl fun k _ => this k, Finset.sum_ite_eq']
  simp [Finset.mem_range.mpr hj]

/-- Value of a list at its np.argmax index: for a nonempty list of the
form map f (range n) it is the running maximum of the list. -/
theorem getD_npArgmax (f : ℕ → ℚ) {n : ℕ} (hn : 0 < n) (hf : 0 ≤ f 0) :
    ((List.range n).map f).getD (npArgmax ((List.range n).map f)) 0
      = listMax ((List.range n).map f) := by
  obtain ⟨m, rfl⟩ : ∃ m, n = m + 1 := ⟨n - 1, (Nat.succ_pred_eq_of_pos hn).symm⟩
  have hrange : List.range (m + 1) = 0 :: List.range' 1 m := by
    rw [List.range_eq_range', List.range'_succ 0 m 1]
  rw [hrange, List.map_cons]
  obtain ⟨hval, hmem⟩ := argmaxPair_range' f m 1 0
  have hargmax : npArgmax (f 0 :: (List.range' 1 m).map f)
      = (argmaxPair 1 (0, f 0) ((List.range' 1 m).map f)).1 := rfl
  rw [hargmax]
  generalize hj : (argmaxPair 1 (0, f 0) ((List.range' 1 m).map f)).1 = j
    at hval hmem
  have hget : (f 0 :: (List.range' 1 m).map f).getD j 0 = f j := by
    rcases List.mem_cons.mp hmem with h0 | h1
    · subst h0; rfl
    · obtain ⟨h1le, h1lt⟩ := List.mem_range'_1.mp h1
      obtain ⟨i, rfl⟩ : ∃ i, j = i + 1 := ⟨j - 1, by omega⟩
      have hilen : i < ((List.range' 1 m).map f).length := by
        simp only [List.length_map, List.length_range']; omega
      rw [List.getD_cons_succ, List.getD_eq_getElem _ _ hilen,
        List.getElem_map]
      congr 1
      rw [List.getElem_range']
      omega
  rw [hget, ← hval, argmaxPair_snd]
  unfold listMax
  rw [List.foldl_cons, max_eq_right hf]

/-- Column j of a matrix, as a vector. -/
def matCol (X : Mat) (j : ℕ) : ℕ → ℚ := fun i => X i j

/-- Test whether two sign vectors are parallel: their dot product over
the first n entries is n (entries are in -1,1, so this means equality;
dot product -n, i.e. negation, is NOT treated as parallel here, exactly
as in the source). -/
def vectorsAreParallel (n : ℕ) (v w : ℕ → ℚ) : Bool :=
  decide ((∑ i in Finset.range n, v i * w i) = (n : ℚ))

/-- Test whether every column of X is parallel to some column of Y
(both of width t). -/
def everyColParallel (n t : ℕ) (X Y : Mat) : Bool :=
  (List.range t).all fun jx =>
    (List.range t).any fun jy =>
      vectorsAreParallel n (matCol X jx) (matCol Y jy)

/-- Column i of X needs resampling when it is parallel to an earlier
column of X or to a column of the optional matrix Y. -/
def columnNeedsResampling (n t i : ℕ) (X : Mat) (Y : Option Mat) : Bool :=
  ((List.range i).any fun j =>
      vectorsAreParallel n (matCol X i) (matCol X j))
  || (match Y with
      | none => false
      | some Ym => (List.range t).any fun j =>
          vectorsAreParallel n (matCol X i) (matCol Ym j))

/-- Replace column i of X by a fresh random -1/1 column; the randomness
comes from the oracle o at the current draw counter rc. -/
def resampleColumn (o : ℕ → ℕ → Bool) (rc i : ℕ) (X : Mat) : Mat :=
  fun r c => if c = i then (if o rc r then 1 else -1) else X r c

/-- The while-loop that keeps resampling column i until it is no longer
parallel to the relevant columns.  The loop terminates only with
probability one, so it carries explicit fuel; exhausted fuel returns the
current state (corresponding to a nonterminating run of the source,
which then returns no value at all). -/
def resampleWhile (o : ℕ → ℕ → Bool) (n t i : ℕ) (Y : Option Mat) :
    ℕ → Mat × ℕ → Mat × ℕ
  | 0, s => s
  | fuel + 1, (X, rc) =>
      if columnNeedsResampling n t i X Y then
        resampleWhile o n t i Y fuel (resampleColumn o rc i X, rc + 1)
      else (X, rc)

/-- Starting block of _onenormest_core before the division by n: the
all-ones matrix, with columns 1..t-1 resampled to random -1/1 and then
corrected for parallel columns. -/
def initColumns (o : ℕ → ℕ → Bool) (n t rfuel : ℕ) : Mat × ℕ :=
  let X0 : Mat := fun _ _ => 1
  if 1 < t then
    let p1 := (List.range' 1 (t - 1)).foldl
      (fun p i => (resampleColumn o p.2 i p.1, p.2 + 1)) (X0, 0)
    (List.range t).foldl (fun p i => resampleWhile o n t i none rfuel p) p1
  else (X0, 0)

/-- The starting matrix X with columns of unit 1-norm (X /= float(n)). -/
def startX (o : ℕ → ℕ → Bool) (n t rfuel : ℕ) : Mat × ℕ :=
  let p := initColumns o n t rfuel
  (fun r c => p.1 r c / (n : ℚ), p.2)

/-- Entrywise sign with ties rounded up: np.sign(np.sign(X) + 0.5). -/
def signRoundUp (Y : Mat) : Mat := fun i j => if Y i j < 0 then -1 else 1

/-- Maximum absolute entry of row i among the first t columns
(np.max(np.abs(Z), axis=1)). -/
def rowMaxAbs (t : ℕ) (Z : Mat) (i : ℕ) : ℚ :=
  listMax ((List.range t).map fun j => |Z i j|)

/-- Insertion into a list sorted in decreasing lexicographic order of
(value, index) pairs; matches Python sorted(zip(h, range(n)),
reverse=True), whose keys are pairwise distinct in the index slot. -/
def insertPairDesc (p : ℚ × ℕ) : List (ℚ × ℕ) → List (ℚ × ℕ)
  | [] => [p]
  | q :: qs =>
      if q.1 < p.1 ∨ (p.1 = q.1 ∧ q.2 < p.2) then p :: q :: qs
      else q :: insertPairDesc p qs

/-- Sort (value, index) pairs in decreasing lexicographic order. -/
def sortPairsDesc (l : List (ℚ × ℕ)) : List (ℚ × ℕ) :=
  l.foldr insertPairDesc []

/-- The mutable state of the while-loop of _onenormest_core. -/
structure CoreState where
  X : Mat
  S : Mat
  estOld : ℚ
  k : ℕ
  ind : List ℕ
  indHist : List ℕ
  indBest : ℕ
  w : ℕ → ℚ
  rc : ℕ

/-- Intermediate quantity of a loop pass: Y = A.dot(X). -/
def iterY (n : ℕ) (A : Mat) (st : CoreState) : Mat := matMul n A st.X

/-- Intermediate quantity of a loop pass: the column 1-norms of Y
(mags). -/
def iterMags (n t : ℕ) (A : Mat) (st : CoreState) : List ℚ :=
  (List.range t).map (colOneNorm n (iterY n A st))

/-- Intermediate quantity of a loop pass: est = np.max(mags). -/
def iterEst (n t : ℕ) (A : Mat) (st : CoreState) : ℚ :=
  listMax (iterMags n t A st)

/-- Intermediate quantity of a loop pass: best_j = np.argmax(mags). -/
def iterBestJ (n t : ℕ) (A : Mat) (st : CoreState) : ℕ :=
  npArgmax (iterMags n t A st)

/-- Updated ind_best (only updated when the estimate improved or
k == 2, and only read from ind when k >= 2). -/
def iterIndBest (n t : ℕ) (A : Mat) (st : CoreState) : ℕ :=
  if st.estOld < iterEst n t A st ∨ st.k = 2 then
    (if 2 ≤ st.k then st.ind.getD (iterBestJ n t A st) 0 else st.indBest)
  else st.indBest

/-- Updated w (the column of Y of largest 1-norm, kept under the same
condition as ind_best). -/
def iterW (n t : ℕ) (A : Mat) (st : CoreState) : ℕ → ℚ :=
  if st.estOld < iterEst n t A st ∨ st.k = 2 then
    matCol (iterY n A st) (iterBestJ n t A st)
  else st.w

/-- Intermediate quantity of a loop pass: S = sign_round_up(Y). -/
def iterS1 (n : ℕ) (A : Mat) (st : CoreState) : Mat :=
  signRoundUp (iterY n A st)

/-- Resampling of the sign matrix S against itself and S_old (only for
t > 1), together with the updated draw counter. -/
def iterS2 (o : ℕ → ℕ → Bool) (n t : ℕ) (A : Mat) (rfuel : ℕ)
    (st : CoreState) : Mat × ℕ :=
  if 1 < t then
    (List.range t).foldl
      (fun p i => resampleWhile o n t i (some st.S) rfuel p)
      (iterS1 n A st, st.rc)
  else (iterS1 n A st, st.rc)

/-- Intermediate quantity of a loop pass: Z = A.H.dot(S). -/
def iterZ (o : ℕ → ℕ → Bool) (n t : ℕ) (A : Mat) (rfuel : ℕ)
    (st : CoreState) : Mat :=
  matMul n (adjointMat A) (iterS2 o n t A rfuel st).1

/-- Intermediate quantity of a loop pass:
h = np.max(np.abs(Z), axis=1). -/
def iterH (o : ℕ → ℕ → Bool) (n t : ℕ) (A : Mat) (rfuel : ℕ)
    (st : CoreState) : ℕ → ℚ :=
  fun i => rowMaxAbs t (iterZ o n t A rfuel st) i

/-- Indices sorted by decreasing h (Python sorted(zip(h, range(n)),
reverse=True) followed by taking the index components). -/
def iterInd1 (o : ℕ → ℕ → Bool) (n t : ℕ) (A : Mat) (rfuel : ℕ)
    (st : CoreState) : List ℕ :=
  (sortPairsDesc
    ((List.range n).map fun i => (iterH o n t A rfuel st i, i))).map
      Prod.snd

/-- Sorted indices with the unvisited ones moved to the front (only for
t > 1), preserving the h-induced order within each group. -/
def iterInd2 (o : ℕ → ℕ → Bool) (n t : ℕ) (A : Mat) (rfuel : ℕ)
    (st : CoreState) : List ℕ :=
  if 1 < t then
    (iterInd1 o n t A rfuel st).filter (fun i => !(st.indHist.contains i))
      ++ (iterInd1 o n t A rfuel st).filter (fun i => st.indHist.contains i)
  else iterInd1 o n t A rfuel st

/-- One pass of the while-loop body of _onenormest_core: either a break
with the returned estimate (inl) or the state for the next pass (inr).
The numbered branch points match the numbered steps of Algorithm 2.4 as
they appear in the source: (1) no-improvement break, the iteration cap,
(2) the all-columns-parallel break, (4) the revisited-best-index break,
(5) the all-indices-visited break. -/
def coreIter (o : ℕ → ℕ → Bool) (n t itmax : ℕ) (A : Mat) (rfuel : ℕ)
    (st : CoreState) : ℚ ⊕ CoreState :=
  if 2 ≤ st.k ∧ iterEst n t A st ≤ st.estOld then Sum.inl st.estOld
  else if itmax < st.k then Sum.inl (iterEst n t A st)
  else if everyColParallel n t (iterS1 n A st) st.S then
    Sum.inl (iterEst n t A st)
  else if 2 ≤ st.k ∧
      listMax ((List.range n).map (iterH o n t A rfuel st))
        = iterH o n t A rfuel st (iterIndBest n t A st) then
    Sum.inl (iterEst n t A st)
  else if 1 < t ∧ (((iterInd1 o n t A rfuel st).take t).all fun i =>
      st.indHist.contains i) then
    Sum.inl (iterEst n t A st)
  else
    Sum.inr
      { X := fun r c => if r = (iterInd2 o n t A rfuel st).getD c 0
            then 1 else 0
        S := (iterS2 o n t A rfuel st).1
        estOld := iterEst n t A st
        k := st.k + 1
        ind := iterInd2 o n t A rfuel st
        indHist := st.indHist ++ (iterInd2 o n t A rfuel st).take t
        indBest := iterIndBest n t A st
        w := iterW n t A st
        rc := (iterS2 o n t A rfuel st).2 }

/-- The while-loop of _onenormest_core.  The loop of the source runs at
most itmax + 1 passes (the pass with k = itmax + 1 breaks), so it is
driven here by a fuel argument, instantiated with itmax + 1 below. -/
def coreLoop (o : ℕ → ℕ → Bool) (n t itmax : ℕ) (A : Mat) (rfuel : ℕ) :
    ℕ → CoreState → ℚ
  | 0, st => st.estOld
  | fuel + 1, st =>
      match coreIter o n t itmax A rfuel st with
      | Sum.inl e => e
      | Sum.inr st' => coreLoop o n t itmax A rfuel fuel st'

/-- The function _onenormest_core: parameter validation followed by the
initialization and the loop.  Only the estimate est is returned (the
certificates v, w and the counters nmults, nresamples that the source
also returns are dropped by onenormest for default arguments). -/
def onenormestCore (o : ℕ → ℕ → Bool) (n t itmax rfuel : ℕ) (A : Mat) :
    Except String ℚ :=
  if itmax < 2 then Except.error "at least two iterations are required"
  else if t < 1 then Except.error "at least one column is required"
  else if n ≤ t then Except.error "t should be smaller than the order of A"
  else
    let p := startX o n t rfuel
    Except.ok (coreLoop o n t itmax A rfuel (itmax + 1)
      { X := p.1
        S := fun _ _ => 0
        estOld := 0
        k := 1
        ind := []
        indHist := []
        indBest := 0
        w := fun _ => 0
        rc := p.2 })

/-- The function onenormest with its default compute_v = compute_w =
False: the square-shape check, the exact small-operator path for t >= n
(np.argmax raises on an empty sequence, which the n = 0 guard models),
and the call into _onenormest_core otherwise.  The operator shape (m, n)
is passed explicitly; errors model the raised exceptions. -/
def onenormest (o : ℕ → ℕ → Bool) (m n : ℕ) (A : Mat) (t itmax rfuel : ℕ) :
    Except String ℚ :=
  if m ≠ n then Except.error "expected the operator to act like a square matrix"
  else if n ≤ t then
    if n = 0 then Except.error "attempt to get argmax of an empty sequence"
    else
      let Aexplicit := matMul n A identityMat
      let colAbsSums := (List.range n).map (colOneNorm n Aexplicit)
      Except.ok (colAbsSums.getD (npArgmax colAbsSums) 0)
  else onenormestCore o n t itmax rfuel A

theorem colOneNorm_matMul_le (n : ℕ) (A X : Mat) (j : ℕ)
    (hX : colOneNorm n X j ≤ 1) :
    colOneNorm n (matMul n A X) j ≤ exactOneNorm n A := by
  have step1 : colOneNorm n (matMul n A X) j
      ≤ ∑ k in Finset.range n, |X k j| * colOneNorm n A k := by
    unfold colOneNorm matMul
    calc ∑ i in Finset.range n, |∑ k in Finset.range n, A i k * X k j|
        ≤ ∑ i in Finset.range n, ∑ k in Finset.range n, |A i k * X k j| :=
          Finset.sum_le_sum fun i _ => Finset.abs_sum_le_sum_abs _ _
      _ = ∑ k in Finset.range n, ∑ i in Finset.range n, |A i k * X k j| :=
          Finset.sum_comm
      _ = ∑ k in Finset.range n, |X k j| * ∑ i in Finset.range n, |A i k| := by
          refine Finset.sum_congr rfl fun k _ => ?_
          rw [Finset.mul_sum]
          refine Finset.sum_congr rfl fun i _ => ?_
          rw [abs_mul, mul_comm]
  have step2 : ∑ k in Finset.range n, |X k j| * colOneNorm n A k
      ≤ ∑ k in Finset.range n, |X k j| * exactOneNorm n A :=
    Finset.sum_le_sum fun k hk =>
      mul_le_mul_of_nonneg_left
        (colOneNorm_le_exact A (Finset.mem_range.mp hk)) (abs_nonneg _)
  have step3 : ∑ k in Finset.range n, |X k j| * exactOneNorm n A
      = colOneNorm n X j * exactOneNorm n A := by
    rw [colOneNorm, Finset.sum_mul]
  have step4 : colOneNorm n X j * exactOneNorm n A ≤ exactOneNorm n A := by
    have := mul_le_mul_of_nonneg_right hX (exactOneNorm_nonneg n A)
    linarith
  linarith

theorem colOneNorm_indicator_le (n : ℕ) (g : ℕ → ℕ) (j : ℕ) :
    colOneNorm n (fun r c => if r = g c then (1 : ℚ) else 0) j ≤ 1 := by
  unfold colOneNorm
  have habs : ∀ i, |if i = g j then (1 : ℚ) else 0|
      = if i = g j then (1 : ℚ) else 0 := by
    intro i; by_cases h : i = g j <;> simp [h]
  rw [Finset.sum_congr rfl fun i _ => habs i, Finset.sum_ite_eq']
  by_cases h : g j ∈ Finset.range n <;> simp [h]

theorem coreIter_invariant (o : ℕ → ℕ → Bool) (n t itmax : ℕ) (A : Mat)
    (rfuel : ℕ) (st : CoreState)
    (hest : st.estOld ≤ exactOneNorm n A)
    (hX : ∀ j, colOneNorm n st.X j ≤ 1) :
    (∀ e, coreIter o n t itmax A rfuel st = Sum.inl e →
        e ≤ exactOneNorm n A)
    ∧ (∀ st', coreIter o n t itmax A rfuel st = Sum.inr st' →
        st'.estOld ≤ exactOneNorm n A
          ∧ ∀ j, colOneNorm n st'.X j ≤ 1) := by
  have hestNew : iterEst n t A st ≤ exactOneNorm n A := by
    refine listMax_le (exactOneNorm_nonneg n A) ?_
    intro x hx
    obtain ⟨j, _, rfl⟩ := List.mem_map.mp hx
    exact colOneNorm_matMul_le n A st.X j (hX j)
  constructor
  · intro e he
    unfold coreIter at he
    split_ifs at he with h1 h2 h3 h4 h5 <;>
      (injection he with he
       rw [← he]
       first
         | exact hest
         | exact hestNew)
  · intro st' hst'
    unfold coreIter at hst'
    split_ifs at hst' with h1 h2 h3 h4 h5
    injection hst' with hst'
    rw [← hst']
    exact ⟨hestNew, fun j => colOneNorm_indicator_le n _ j⟩

theorem coreLoop_le (o : ℕ → ℕ → Bool) (n t itmax : ℕ) (A : Mat)
    (rfuel : ℕ) :
    ∀ (fuel : ℕ) (st : CoreState),
      st.estOld ≤ exactOneNorm n A → (∀ j, colOneNorm n st.X j ≤ 1) →
      coreLoop o n t itmax A rfuel fuel st ≤ exactOneNorm n A := by
  intro fuel
  induction fuel with
  | zero => intro st h _; exact h
  | succ fuel ih =>
      intro st hest hX
      have hinv := coreIter_invariant o n t itmax A rfuel st hest hX
      simp only [coreLoop]
      cases hiter : coreIter o n t itmax A rfuel st with
      | inl e => exact hinv.1 e hiter
      | inr st' =>
          obtain ⟨h1, h2⟩ := hinv.2 st' hiter
          exact ih st' h1 h2

/-- Entries of a matrix all equal to 1 or -1. -/
def entriesPM (X : Mat) : Prop := ∀ r c, X r c = 1 ∨ X r c = -1

theorem resampleColumn_entriesPM (o : ℕ → ℕ → Bool) (rc i : ℕ) (X : Mat)
    (h : entriesPM X) : entriesPM (resampleColumn o rc i X) := by
  intro r c
  unfold resampleColumn
  by_cases hc : c = i
  · by_cases ho : o rc r <;> simp [hc, ho]
  · simp only [if_neg hc]; exact h r c

theorem resampleWhile_entriesPM (o : ℕ → ℕ → Bool) (n t i : ℕ)
    (Y : Option Mat) :
    ∀ (fuel : ℕ) (X : Mat) (rc : ℕ), entriesPM X →
      entriesPM (resampleWhile o n t i Y fuel (X, rc)).1 := by
  intro fuel
  induction fuel with
  | zero => intro X rc h; exact h
  | succ fuel ih =>
      intro X rc h
      simp only [resampleWhile]
      split_ifs with hc
      · exact ih _ _ (resampleColumn_entriesPM o rc i X h)
      · exact h

theorem initColumns_entriesPM (o : ℕ → ℕ → Bool) (n t rfuel : ℕ) :
    entriesPM (initColumns o n t rfuel).1 := by
  have hones : entriesPM (fun _ _ => (1 : ℚ)) := fun _ _ => Or.inl rfl
  have hfold1 : ∀ (l : List ℕ) (p : Mat × ℕ), entriesPM p.1 →
      entriesPM (l.foldl
        (fun p i => (resampleColumn o p.2 i p.1, p.2 + 1)) p).1 := by
    intro l
    induction l with
    | nil => intro p h; exact h
    | cons x xs ih =>
        intro p h
        exact ih _ (resampleColumn_entriesPM o p.2 x p.1 h)
  have hfold2 : ∀ (l : List ℕ) (p : Mat × ℕ), entriesPM p.1 →
      entriesPM (l.foldl
        (fun p i => resampleWhile o n t i none rfuel p) p).1 := by
    intro l
    induction l with
    | nil => intro p h; exact h
    | cons x xs ih =>
        intro p h
        refine ih _ ?_
        have := resampleWhile_entriesPM o n t x none rfuel p.1 p.2 h
        simpa using this
  unfold initColumns
  split_ifs with ht
  · exact hfold2 _ _ (hfold1 _ _ hones)
  · exact hones

theorem startX_colOneNorm (o : ℕ → ℕ → Bool) (n t rfuel : ℕ)
    (hn : 0 < n) (j : ℕ) :
    colOneNorm n (startX o n t rfuel).1 j = 1 := by
  have h := initColumns_entriesPM o n t rfuel
  unfold startX colOneNorm
  simp only
  have habs : ∀ i, |(initColumns o n t rfuel).1 i j / (n : ℚ)|
      = 1 / (n : ℚ) := by
    intro i
    rcases h i j with h1 | h1 <;> rw [h1] <;>
      rw [abs_div] <;> simp
  rw [Finset.sum_congr rfl fun i _ => habs i, Finset.sum_const,
    Finset.card_range, nsmul_eq_mul]
  have hne : (n : ℚ) ≠ 0 := Nat.cast_ne_zero.mpr hn.ne'
  field_simp

/-- Value of the exact small-operator path: materializing the operator
against the identity and reading the column of the argmax recovers the
exact 1-norm, for a nonempty operator. -/
theorem exactPath_val (n : ℕ) (A : Mat) (hn : 0 < n) :
    ((List.range n).map (colOneNorm n (matMul n A identityMat))).getD
      (npArgmax
        ((List.range n).map (colOneNorm n (matMul n A identityMat)))) 0
      = exactOneNorm n A := by
  have hmap : (List.range n).map (colOneNorm n (matMul n A identityMat))
      = (List.range n).map (colOneNorm n A) := by
    refine List.map_congr_left fun j hj => ?_
    have hjn := List.mem_range.mp hj
    unfold colOneNorm
    exact Finset.sum_congr rfl fun i _ => by
      rw [matMul_identity n A i j hjn]
  rw [hmap]
  exact getD_npArgmax (colOneNorm n A) hn (colOneNorm_nonneg n A 0)

/-- C2: for every square linear operator A, every block width t at least
1 and every iteration cap itmax at least 2, any value returned by
onenormest -- under every outcome of the random column resampling
(every oracle o and every resampling fuel) -- is at most the exact
1-norm of A, the maximum absolute column sum. -/
theorem onenormest_le_exactOneNorm (o : ℕ → ℕ → Bool) (m n : ℕ)
    (A : Mat) (t itmax rfuel : ℕ) (est : ℚ)
    (ht : 1 ≤ t) (hitmax : 2 ≤ itmax)
    (hok : onenormest o m n A t itmax rfuel = Except.ok est) :
    est ≤ exactOneNorm n A := by
  unfold onenormest at hok
  by_cases hmn : m ≠ n
  · rw [if_pos hmn] at hok; exact Except.noConfusion hok
  rw [if_neg hmn] at hok
  by_cases hnt : n ≤ t
  · rw [if_pos hnt] at hok
    by_cases hn0 : n = 0
    · rw [if_pos hn0] at hok; exact Except.noConfusion hok
    · rw [if_neg hn0] at hok
      injection hok with hok
      rw [← hok, exactPath_val n A (Nat.pos_of_ne_zero hn0)]
  · rw [if_neg hnt] at hok
    unfold onenormestCore at hok
    rw [if_neg (by omega : ¬ itmax < 2), if_neg (by omega : ¬ t < 1),
      if_neg hnt] at hok
    injection hok with hok
    rw [← hok]
    have hn : 0 < n := by omega
    refine coreLoop_le o n t itmax A rfuel (itmax + 1) _
      (exactOneNorm_nonneg n A) ?_
    intro j
    exact le_of_eq (startX_colOneNorm o n t rfuel hn j)

/-- C2 witness: a concrete run of the estimator on the 1-by-1 operator
with entry 3, whose returned estimate 3 is bounded by the exact norm. -/
theorem onenormest_le_exactOneNorm_witness :
    onenormest (fun _ _ => true) 1 1 (fun _ _ => 3) 1 2 0 = Except.ok 3
      ∧ (3 : ℚ) ≤ exactOneNorm 1 (fun _ _ => 3) := by
  have hok : onenormest (fun _ _ => true) 1 1 (fun _ _ => 3) 1 2 0
      = Except.ok 3 := by
    norm_num [onenormest, matMul, identityMat, colOneNorm, npArgmax,
      argmaxPair, listMax, List.range_succ, Finset.sum_range_one]
  exact ⟨hok, onenormest_le_exactOneNorm (fun _ _ => true) 1 1
    (fun _ _ => 3) 1 2 0 3 (le_refl 1) (le_refl 2) hok⟩

/-- C6: for a nonempty square operator of order n and any t at least n,
onenormest returns exactly the 1-norm, computed by materializing the
operator against the identity; the iterative block path is never
entered (the result does not depend on the oracle, the resampling fuel
or itmax). -/
theorem onenormest_exact_for_large_t (o : ℕ → ℕ → Bool) (n : ℕ)
    (A : Mat) (t itmax rfuel : ℕ) (hn : 0 < n) (hnt : n ≤ t) :
    onenormest o n n A t itmax rfuel = Except.ok (exactOneNorm n A) := by
  unfold onenormest
  rw [if_neg (fun h => h rfl), if_pos hnt, if_neg hn.ne']
  exact congrArg Except.ok (exactPath_val n A hn)

/-- C6 witness: the exact path at the 1-by-1 operator with entry 3 and
t = 2. -/
theorem onenormest_exact_for_large_t_witness :
    onenormest (fun _ _ => true) 1 1 (fun _ _ => 3) 2 5 0
      = Except.ok (exactOneNorm 1 (fun _ _ => 3)) :=
  onenormest_exact_for_large_t (fun _ _ => true) 1 (fun _ _ => 3) 2 5 0
    (Nat.one_pos) (by norm_num)

/-- C9 (amended): onenormest fails with ValueError whenever the
operator is not square; in the block-estimation path (t < n) it fails
whenever itmax < 2 or t < 1; but when t >= n the exact path returns an
estimate without validating t or itmax (so itmax < 2 alone does not
cause a failure). -/
theorem onenormest_validation (o : ℕ → ℕ → Bool) (m n : ℕ) (A : Mat)
    (t itmax rfuel : ℕ) :
    (m ≠ n → ∃ msg, onenormest o m n A t itmax rfuel = Except.error msg)
    ∧ (t < n → itmax < 2 ∨ t < 1 →
        ∃ msg, onenormest o n n A t itmax rfuel = Except.error msg)
    ∧ (0 < n → n ≤ t →
        ∃ q, onenormest o n n A t itmax rfuel = Except.ok q) := by
  refine ⟨?_, ?_, ?_⟩
  · intro hmn
    refine ⟨"expected the operator to act like a square matrix", ?_⟩
    unfold onenormest
    rw [if_pos hmn]
  · intro htn hbad
    unfold onenormest
    rw [if_neg (fun h => h rfl), if_neg (by omega)]
    unfold onenormestCore
    by_cases h2 : itmax < 2
    · exact ⟨"at least two iterations are required", by rw [if_pos h2]⟩
    · have h1 : t < 1 := by omega
      refine ⟨"at least one column is required", ?_⟩
      rw [if_neg h2, if_pos h1]
  · intro hn hnt
    unfold onenormest
    rw [if_neg (fun h => h rfl), if_pos hnt, if_neg hn.ne']
    exact ⟨_, rfl⟩

/-- C9 witness: a non-square 2-by-1 shape is rejected. -/
theorem onenormest_validation_witness :
    ∃ msg, onenormest (fun _ _ => true) 2 1 (fun _ _ => 5) 1 2 0
      = Except.error msg :=
  (onenormest_validation (fun _ _ => true) 2 1 (fun _ _ => 5) 1 2 0).1
    (by norm_num)

/-- C9 counterexample: a square 1-by-1 operator with t = 1 >= n and
itmax = 1 < 2 returns the estimate 5 instead of failing with a
ValueError, refuting the claim that itmax < 2 always fails. -/
theorem onenormest_no_itmax_check :
    onenormest (fun _ _ => true) 1 1 (fun _ _ => 5) 1 1 0
      = Except.ok 5 := by
  norm_num [onenormest, matMul, identityMat, colOneNorm, npArgmax,
    argmaxPair, listMax, List.range_succ, Finset.sum_range_one]

end OneNormEst

namespace CtmcTree

/-- Per-node arrays of shape (nstates, nsites), as functions of state
index and site index. -/
abbrev Arr : Type := ℕ → ℕ → ℚ

/-- Elementwise (Hadamard) product of two arrays (numpy a * b). -/
def hada (A B : Arr) : Arr := fun i j => A i j * B i j

/-- The function pseudo_reciprocal of expect.py, at one entry:
A_filled = np.where(A, A, 1) followed by
np.where(A, np.reciprocal(A_filled), 0), i.e. 0 maps to 0 and a nonzero
x to 1/x, with no division by zero performed. -/
def pseudo_reciprocal (x : ℚ) : ℚ :=
  let x_filled := if x = 0 then 1 else x
  if x = 0 then 0 else x_filled⁻¹

/-- pseudo_reciprocal applied elementwise to an array. -/
def pseudoRecipArr (A : Arr) : Arr := fun i j => pseudo_reciprocal (A i j)

/-- Rooted tree over natural-number node labels; the children list is
the successor order of the source's digraph.  The per-edge data
(edge_rate_pairs, edge_process_pairs, keyed in the source by the
(head, tail) pair) is passed as functions of the tail node label, which
determines the edge in a tree. -/
inductive PTree : Type where
  | node : ℕ → List PTree → PTree

/-- Label of the root node of a subtree. -/
def PTree.idOf : PTree → ℕ
  | .node v _ => v

/-- Children of the root node of a subtree. -/
def PTree.childrenOf : PTree → List PTree
  | .node _ cs => cs

/-- The function get_subtree_likelihoods of common_likelihood.py, at one
node: the node's observation indicator array, multiplied elementwise by
expm_mul(edge_rate, child_array) over the outgoing edges in order.
The expm evaluator f is an abstract parameter (the per-process objects
live in expm_helpers.py, outside the sources under verification):
f p r B stands for f[p].expm_mul(r, B). -/
def subtreeArr (f : ℕ → ℚ → Arr → Arr) (er : ℕ → ℚ) (ep : ℕ → ℕ)
    (ind : ℕ → Arr) : PTree → Arr
  | .node v cs =>
      (cs.attach.map (fun c => f (ep c.1.idOf) (er c.1.idOf)
        (subtreeArr f er ep ind c.1))).foldl hada (ind v)
  termination_by t => sizeOf t
  decreasing_by
    have h := List.sizeOf_lt_of_mem c.2
    simp only [PTree.node.sizeOf_spec]
    omega

/-- The function get_conditional_likelihoods of common_likelihood.py, at
one node: the indicator array multiplied by the children's conditional
arrays, then pushed through the upstream edge unless the node is the
root. -/
def condArr (f : ℕ → ℚ → Arr → Arr) (er : ℕ → ℚ) (ep : ℕ → ℕ)
    (ind : ℕ → Arr) (isRoot : Bool) : PTree → Arr
  | .node v cs =>
      let arr := (cs.attach.map (fun c =>
        condArr f er ep ind false c.1)).foldl hada (ind v)
      if isRoot then arr else f (ep v) (er v) arr
  termination_by t => sizeOf t
  decreasing_by
    have h := List.sizeOf_lt_of_mem c.2
    simp only [PTree.node.sizeOf_spec]
    omega

/-- The identity matrix np.identity(nstates) (total on naturals). -/
def identityArr : Arr := fun i j => if i = j then 1 else 0

/-- Per-site column normalization used by the marginal pass:
col_sums_recip = pseudo_reciprocal(next_distn.sum(axis=0)) followed by
next_distn * col_sums_recip. -/
def normalizeCols (nstates : ℕ) (M : Arr) : Arr :=
  fun i s => M i s * pseudo_reciprocal (∑ r in Finset.range nstates, M r s)

/-- Marginal distribution at the root (get_node_to_marginal_distn,
root branch): the root's postorder array times the prior broadcast down
the columns, column-normalized. -/
def rootMarginal (nstates : ℕ) (distn : ℕ → ℚ) (subArrs : ℕ → Arr)
    (root : ℕ) : Arr :=
  normalizeCols nstates (fun i s => subArrs root i s * distn i)

/-- Marginal distribution at a non-root node (get_node_to_marginal_distn,
non-root branch): P = expm_mul(edge_rate, identity) for the upstream
edge, next = (head_marginal.T.dot(P)).T times the node's own postorder
subtree array, column-normalized.  No sibling arrays enter. -/
def nodeMarginal (f : ℕ → ℚ → Arr → Arr) (er : ℕ → ℚ) (ep : ℕ → ℕ)
    (nstates : ℕ) (subArrs : ℕ → Arr) (pm : Arr) (child : ℕ) : Arr :=
  let P := f (ep child) (er child) identityArr
  let pushed : Arr := fun i s =>
    ∑ j in Finset.range nstates, pm j s * P j i
  normalizeCols nstates (hada pushed (subArrs child))

/-- The preorder traversal of get_node_to_marginal_distn below a node
whose own marginal m has already been computed: record (label, m) and
recurse into the children with their nodeMarginal values. -/
def marginalPassAux (f : ℕ → ℚ → Arr → Arr) (er : ℕ → ℚ) (ep : ℕ → ℕ)
    (nstates : ℕ) (subArrs : ℕ → Arr) : PTree → Arr → List (ℕ × Arr)
  | .node v cs, m =>
      (v, m) :: (cs.attach.map (fun c =>
        marginalPassAux f er ep nstates subArrs c.1
          (nodeMarginal f er ep nstates subArrs m c.1.idOf))).flatten
  termination_by t => sizeOf t
  decreasing_by
    have h := List.sizeOf_lt_of_mem c.2
    simp only [PTree.node.sizeOf_spec]
    omega

/-- The function get_node_to_marginal_distn: the root marginal followed
by the preorder pass over the rest of the tree. -/
def marginalPass (f : ℕ → ℚ → Arr → Arr) (er : ℕ → ℚ) (ep : ℕ → ℕ)
    (nstates : ℕ) (distn : ℕ → ℚ) (subArrs : ℕ → Arr) (tr : PTree) :
    List (ℕ × Arr) :=
  marginalPassAux f er ep nstates subArrs tr
    (rootMarginal nstates distn subArrs tr.idOf)

/-- Joint-endpoint matrix of one site before normalization:
J = np.outer(d, v) * P. -/
def siteJ (P : Arr) (d v : ℕ → ℚ) : Arr := fun i j => d i * v j * P i j

/-- Normalization of the joint matrix: J / J.sum() when the total is
nonzero, np.zeros_like(J) otherwise. -/
def normalizeJoint (nstates : ℕ) (J : Arr) : Arr :=
  if (∑ i in Finset.range nstates, ∑ j in Finset.range nstates, J i j) = 0
  then fun _ _ => 0
  else fun i j => J i j
    / (∑ i in Finset.range nstates, ∑ j in Finset.range nstates, J i j)

/-- Per-site expectation of get_edge_to_site_expectations: J from the
head marginal column d and tail subtree column v, normalized; K_mod =
K * pseudo_reciprocal(P); the expectation is (J * K_mod).sum(). -/
def siteExpectation (nstates : ℕ) (P K : Arr) (d v : ℕ → ℚ) : ℚ :=
  let J := normalizeJoint nstates (siteJ P d v)
  let Kmod := hada K (pseudoRecipArr P)
  ∑ i in Finset.range nstates, ∑ j in Finset.range nstates,
    J i j * Kmod i j

/-- The per-site expectations of one edge (head, child): d is the head
marginal column, v the child's postorder subtree column, and (P, K) come
from the process's get_expm_and_frechet at the edge rate; getPK is an
abstract parameter standing for that evaluator (it lives in
expm_helpers.py, outside the sources under verification). -/
def edgeSiteExpectations (getPK : ℕ → ℚ → Arr × Arr) (er : ℕ → ℚ)
    (ep : ℕ → ℕ) (nstates : ℕ) (marg : ℕ → Arr) (subArrs : ℕ → Arr)
    (head child : ℕ) : ℕ → ℚ :=
  fun site =>
    siteExpectation nstates (getPK (ep child) (er child)).1
      (getPK (ep child) (er child)).2
      (fun i => marg head i site) (fun i => subArrs child i site)

/-- The function get_edge_to_site_expectations: one entry per non-root
node (equivalently per edge), keyed by the (head, tail) pair. -/
def edgeExpectations (getPK : ℕ → ℚ → Arr × Arr) (er : ℕ → ℚ)
    (ep : ℕ → ℕ) (nstates : ℕ) (marg : ℕ → Arr) (subArrs : ℕ → Arr) :
    PTree → List ((ℕ × ℕ) × (ℕ → ℚ))
  | .node v cs =>
      (cs.attach.map (fun c =>
        ((v, c.1.idOf),
          edgeSiteExpectations getPK er ep nstates marg subArrs v c.1.idOf)
        :: edgeExpectations getPK er ep nstates marg subArrs c.1)).flatten
  termination_by t => sizeOf t
  decreasing_by
    have h := List.sizeOf_lt_of_mem c.2
    simp only [PTree.node.sizeOf_spec]
    omega

/-- Indices of the observables attached to a node:
np.flatnonzero(observable_nodes == node), in increasing order. -/
def localObservables (node : ℕ) (observableNodes : List ℕ) : List ℕ :=
  (List.range observableNodes.length).filter
    (fun idx => observableNodes.getD idx 0 = node)

/-- C-order stride of an axis in the raveled state index: the product
of the state-space shape strictly after that axis. -/
def strideAfter (shape : List ℕ) (axis : ℕ) : ℕ :=
  (shape.drop (axis + 1)).foldl (· * ·) 1

/-- Component of a raveled (C-order) state index along an axis; this is
how the reshape of the (nsites, *state_space_shape) observation array to
(nsites, nstates) relates flat state indices to multi-indices. -/
def stateComp (shape : List ℕ) (axis flat : ℕ) : ℕ :=
  (flat / strideAfter shape axis) % shape.getD axis 1

/-- Row of the (k+1)-by-k indicator table selected by np.take at an
observation value: np.fill_diagonal makes rows 0..k-1 the identity rows
and row k (also reachable as index -1 in Python) is set to all ones.
Negative indices select from the end, exactly as numpy indexing does;
values outside -(k+1)..k would raise an IndexError and are outside the
modelled domain. -/
def effRow (k : ℕ) (obs : ℤ) : ℕ :=
  if obs < 0 then (obs + (k : ℤ) + 1).toNat else obs.toNat

/-- Entry of the indicator table at the selected row and column j:
1 on the all-ones row k, the identity indicator otherwise. -/
def indicatorEntry (k : ℕ) (obs : ℤ) (j : ℕ) : ℚ :=
  if effRow k obs = k then 1 else if j = effRow k obs then 1 else 0

/-- The function create_indicator_array of common_likelihood.py, at one
(flat state, site) entry: the array starts as all ones and each local
observable multiplies in its mask, the indicator-table row selected by
the observation at that site, evaluated at the state's component along
the observable's axis. -/
def create_indicator_array (shape : List ℕ)
    (observableNodes observableAxes : List ℕ)
    (iidObservations : List (List ℤ)) (node : ℕ) : Arr :=
  fun stateFlat site =>
    (localObservables node observableNodes).foldl
      (fun acc idx =>
        acc * indicatorEntry (shape.getD (observableAxes.getD idx 0) 1)
          ((iidObservations.getD site []).getD idx 0)
          (stateComp shape (observableAxes.getD idx 0) stateFlat))
      1

/-- The output record of process_json_in (expect.py): the status field
is the constant string success and is omitted; expectations is the
site-major table produced by zip(*per-edge lists), or None. -/
structure JOut : Type where
  feasibility : Bool
  expectations : Option (List (List ℚ))

/-- Association-list lookup for per-node arrays, with an all-zero array
as the (never consulted for well-formed trees) default. -/
def lookupArr (l : List (ℕ × Arr)) (v : ℕ) : Arr :=
  ((l.find? (fun p => p.1 = v)).map Prod.snd).getD (fun _ _ => 0)

/-- Association-list lookup for per-edge site expectations. -/
def lookupEdge (l : List ((ℕ × ℕ) × (ℕ → ℚ))) (e : ℕ × ℕ) : ℕ → ℚ :=
  ((l.find? (fun p => p.1 = e)).map Prod.snd).getD (fun _ => 0)

/-- All (head, tail) edges of the tree, parents before their subtrees. -/
def edgeList : PTree → List (ℕ × ℕ)
  | .node v cs =>
      (cs.attach.map (fun c => (v, c.1.idOf) :: edgeList c.1)).flatten
  termination_by t => sizeOf t
  decreasing_by
    have h := List.sizeOf_lt_of_mem c.2
    simp only [PTree.node.sizeOf_spec]
    omega

/-- The dictionary node_to_subtree_array of get_subtree_likelihoods, as
an association list over the tree. -/
def subtreeMapList (f : ℕ → ℚ → Arr → Arr) (er : ℕ → ℚ) (ep : ℕ → ℕ)
    (ind : ℕ → Arr) : PTree → List (ℕ × Arr)
  | .node v cs =>
      (v, subtreeArr f er ep ind (.node v cs))
        :: (cs.attach.map (fun c =>
              subtreeMapList f er ep ind c.1)).flatten
  termination_by t => sizeOf t
  decreasing_by
    have h := List.sizeOf_lt_of_mem c.2
    simp only [PTree.node.sizeOf_spec]
    omega

/-- Total per-site likelihoods at the root: distn.dot(root array). -/
def rootLikelihoods (nstates : ℕ) (distn : ℕ → ℚ) (rootArr : Arr) :
    ℕ → ℚ :=
  fun site => ∑ i in Finset.range nstates, distn i * rootArr i site

/-- Log-likelihood sanitization of process_json_in:
log_likelihoods = np.log(likelihoods), feasibilities =
np.isfinite(log_likelihoods), log_likelihoods = np.where(feasibilities,
log_likelihoods, 0).  Over the reals, np.log(x) is finite exactly when
0 < x, so the sanitized value is log(likelihood) for a feasible site
and the sentinel 0 for an infeasible one; log is an abstract parameter
since the rationals carry no logarithm. -/
def sanitizedLogLikelihoods (log : ℚ → ℚ) (likelihoods : ℕ → ℚ) :
    ℕ → ℚ :=
  fun site => if 0 < likelihoods site then log (likelihoods site) else 0

/-- Number of states of the scene: np.prod(state_space_shape). -/
def sceneNStates (shape : List ℕ) : ℕ := shape.foldl (· * ·) 1

/-- The per-node postorder arrays of the scene, as the dict lookup of
get_subtree_likelihoods with the scene's indicator arrays. -/
def sceneSubArrs (f : ℕ → ℚ → Arr → Arr) (er : ℕ → ℚ) (ep : ℕ → ℕ)
    (shape : List ℕ) (oN oA : List ℕ) (obss : List (List ℤ))
    (tr : PTree) : ℕ → Arr :=
  lookupArr (subtreeMapList f er ep
    (create_indicator_array shape oN oA obss) tr)

/-- The per-site likelihoods of the scene:
likelihoods = distn.dot(node_to_subtree_array[root]). -/
def sceneLikelihoods (f : ℕ → ℚ → Arr → Arr) (er : ℕ → ℚ) (ep : ℕ → ℕ)
    (shape : List ℕ) (oN oA : List ℕ) (obss : List (List ℤ))
    (distn : ℕ → ℚ) (tr : PTree) : ℕ → ℚ :=
  rootLikelihoods (sceneNStates shape) distn
    (sceneSubArrs f er ep shape oN oA obss tr tr.idOf)

/-- The per-node marginal arrays of the scene, as the dict lookup of
get_node_to_marginal_distn. -/
def sceneMargs (f : ℕ → ℚ → Arr → Arr) (er : ℕ → ℚ) (ep : ℕ → ℕ)
    (shape : List ℕ) (oN oA : List ℕ) (obss : List (List ℤ))
    (distn : ℕ → ℚ) (tr : PTree) : ℕ → Arr :=
  lookupArr (marginalPass f er ep (sceneNStates shape) distn
    (sceneSubArrs f er ep shape oN oA obss tr) tr)

/-- The per-edge site expectations of the scene
(get_edge_to_site_expectations). -/
def sceneEdgeExp (f : ℕ → ℚ → Arr → Arr) (getPK : ℕ → ℚ → Arr × Arr)
    (er : ℕ → ℚ) (ep : ℕ → ℕ) (shape : List ℕ) (oN oA : List ℕ)
    (obss : List (List ℤ)) (distn : ℕ → ℚ) (tr : PTree) :
    List ((ℕ × ℕ) × (ℕ → ℚ)) :=
  edgeExpectations getPK er ep (sceneNStates shape)
    (sceneMargs f er ep shape oN oA obss distn tr)
    (sceneSubArrs f er ep shape oN oA obss tr) tr

/-- The function process_json_in of expect.py, over an already-unpacked
scene (the unpacking helpers live in common_unpacking.py, outside the
sources under verification): builds the per-node indicator and
postorder arrays, the root likelihoods, the marginal pass and the edge
expectations, then assembles feasibility and the expectations table.
A site is feasible when np.log of its likelihood is finite, i.e. (over
the reals) when the likelihood is strictly positive; feasibility is
np.all of the per-site feasibilities.  When feasibility fails,
expectations is None; otherwise expectations is zip(*per-edge lists),
the site-major table of the per-edge per-site expectations. -/
def processJsonIn (f : ℕ → ℚ → Arr → Arr) (getPK : ℕ → ℚ → Arr × Arr)
    (er : ℕ → ℚ) (ep : ℕ → ℕ) (shape : List ℕ) (oN oA : List ℕ)
    (obss : List (List ℤ)) (distn : ℕ → ℚ) (tr : PTree) : JOut :=
  if (List.range obss.length).all (fun site =>
      decide (0 < sceneLikelihoods f er ep shape oN oA obss distn tr site))
  then
    { feasibility := true
      expectations := some ((List.range obss.length).map (fun site =>
        (edgeList tr).map (fun e =>
          lookupEdge (sceneEdgeExp f getPK er ep shape oN oA obss distn tr)
            e site))) }
  else
    { feasibility := false, expectations := none }

theorem foldl_hada_congr {α : Type} (g1 g2 : α → Arr) :
    ∀ (l : List α), (∀ x ∈ l, g1 x = g2 x) →
      ∀ init, (l.map g1).foldl hada init = (l.map g2).foldl hada init := by
  intro l
  induction l with
  | nil => intro _ init; rfl
  | cons x xs ih =>
      intro h init
      simp only [List.map_cons, List.foldl_cons]
      rw [h x (List.mem_cons_self x xs)]
      exact ih (fun y hy => h y (List.mem_cons_of_mem x hy)) _

theorem condArr_eq_aux (f : ℕ → ℚ → Arr → Arr) (er : ℕ → ℚ)
    (ep : ℕ → ℕ) (ind : ℕ → Arr) :
    ∀ (tr : PTree),
      condArr f er ep ind false tr
        = f (ep tr.idOf) (er tr.idOf) (subtreeArr f er ep ind tr)
      ∧ condArr f er ep ind true tr = subtreeArr f er ep ind tr
  | .node v cs => by
      have hcong : ∀ c ∈ cs.attach,
          condArr f er ep ind false c.1
            = f (ep c.1.idOf) (er c.1.idOf) (subtreeArr f er ep ind c.1) :=
        fun c _ => (condArr_eq_aux f er ep ind c.1).1
      constructor
      · rw [condArr, subtreeArr]
        have hvid : (PTree.node v cs).idOf = v := rfl
        rw [hvid]
        simp only [Bool.false_eq_true, if_false]
        exact congrArg (f (ep v) (er v))
          (foldl_hada_congr _ _ cs.attach hcong (ind v))
      · rw [condArr, subtreeArr]
        simp only [if_true]
        exact foldl_hada_congr _ _ cs.attach hcong (ind v)
  termination_by tr => sizeOf tr
  decreasing_by
    have h := List.sizeOf_lt_of_mem c.2
    simp only [PTree.node.sizeOf_spec]
    omega

/-- C10: on identical inputs, the two postorder routines are pointwise
related: at every non-root node the get_conditional_likelihoods array
is expm_mul of the upstream edge rate applied to the
get_subtree_likelihoods array; at the root the two arrays coincide, and
hence the root likelihoods distn.dot(root array) coincide. -/
theorem cond_subtree_refinement (f : ℕ → ℚ → Arr → Arr) (er : ℕ → ℚ)
    (ep : ℕ → ℕ) (ind : ℕ → Arr) (tr : PTree) (nstates : ℕ)
    (distn : ℕ → ℚ) :
    condArr f er ep ind false tr
      = f (ep tr.idOf) (er tr.idOf) (subtreeArr f er ep ind tr)
    ∧ condArr f er ep ind true tr = subtreeArr f er ep ind tr
    ∧ rootLikelihoods nstates distn (condArr f er ep ind true tr)
      = rootLikelihoods nstates distn (subtreeArr f er ep ind tr) := by
  obtain ⟨h1, h2⟩ := condArr_eq_aux f er ep ind tr
  exact ⟨h1, h2, by rw [h2]⟩

/-- C8: pseudo_reciprocal acts elementwise as 0 to 0 and x to 1/x for
nonzero x, with zero entries producing exactly 0 (no division by zero
is performed: the reciprocal is taken of the zero-filled array). -/
theorem pseudo_reciprocal_spec :
    (∀ (A : Arr) (i j : ℕ), pseudoRecipArr A i j
        = if A i j = 0 then 0 else (A i j)⁻¹)
    ∧ pseudo_reciprocal 0 = 0
    ∧ (∀ x : ℚ, x ≠ 0 → pseudo_reciprocal x = x⁻¹) := by
  refine ⟨?_, rfl, ?_⟩
  · intro A i j
    unfold pseudoRecipArr pseudo_reciprocal
    by_cases h : A i j = 0 <;> simp [h]
  · intro x hx
    unfold pseudo_reciprocal
    simp [hx]

/-- C8 witness: pseudo_reciprocal at the nonzero input 3. -/
theorem pseudo_reciprocal_spec_witness :
    pseudo_reciprocal 3 = (3 : ℚ)⁻¹ :=
  pseudo_reciprocal_spec.2.2 3 (by norm_num)

/-- C7: both normalizations are total functions of their inputs (no
division-by-zero error can be raised): a per-site column with nonzero
sum is scaled to sum exactly to 1 and a zero-sum column maps to all
zeros; likewise the joint matrix with nonzero total is scaled to total
exactly 1 and a zero total maps to the all-zero matrix. -/
theorem normalization_total (nstates : ℕ) (M J : Arr) (s : ℕ)
    (_hM : ∀ i, 0 ≤ M i s) (_hJ : ∀ i j, 0 ≤ J i j) :
    ((∑ r in Finset.range nstates, M r s) ≠ 0 →
      ∑ i in Finset.range nstates, normalizeCols nstates M i s = 1)
    ∧ ((∑ r in Finset.range nstates, M r s) = 0 →
      ∀ i, normalizeCols nstates M i s = 0)
    ∧ ((∑ i in Finset.range nstates, ∑ j in Finset.range nstates, J i j)
        ≠ 0 →
      ∑ i in Finset.range nstates, ∑ j in Finset.range nstates,
        normalizeJoint nstates J i j = 1)
    ∧ ((∑ i in Finset.range nstates, ∑ j in Finset.range nstates, J i j)
        = 0 →
      ∀ i j, normalizeJoint nstates J i j = 0) := by
  refine ⟨?_, ?_, ?_, ?_⟩
  · intro hs
    unfold normalizeCols
    rw [← Finset.sum_mul]
    rw [pseudo_reciprocal_spec.2.2 _ hs]
    exact mul_inv_cancel₀ hs
  · intro hs i
    unfold normalizeCols
    rw [hs, pseudo_reciprocal_spec.2.1, mul_zero]
  · intro hs
    unfold normalizeJoint
    rw [if_neg hs]
    have hinner : ∀ i ∈ Finset.range nstates,
        (∑ j in Finset.range nstates, J i j
          / (∑ i in Finset.range nstates,
              ∑ j in Finset.range nstates, J i j))
        = (∑ j in Finset.range nstates, J i j)
          / (∑ i in Finset.range nstates,
              ∑ j in Finset.range nstates, J i j) := by
      intro i _
      exact (Finset.sum_div _ _ _).symm
    rw [Finset.sum_congr rfl hinner, ← Finset.sum_div]
    exact div_self hs
  · intro hs i j
    unfold normalizeJoint
    rw [if_pos hs]

/-- C7 witness: the column normalization at a 1-state all-ones column,
whose sum 1 is nonzero. -/
theorem normalization_total_witness :
    ∑ i in Finset.range 1, normalizeCols 1 (fun _ _ => 1) i 0 = 1 :=
  (normalization_total 1 (fun _ _ => 1) (fun _ _ => 1) 0
    (fun _ => by norm_num) (fun _ _ => by norm_num)).1
    (by norm_num [Finset.sum_range_one])

/-- The joint endpoint distribution exactly as the specification words
it for claim C3: the elementwise product of outer(d, v) with P,
normalized to sum to 1 over all entries, or the all-zero matrix when
the unnormalized total is exactly zero. -/
def claimedJ (nstates : ℕ) (P : Arr) (d v : ℕ → ℚ) : Arr :=
  let U : Arr := fun i j => d i * v j * P i j
  let total := ∑ i in Finset.range nstates,
    ∑ j in Finset.range nstates, U i j
  if total = 0 then fun _ _ => 0 else fun i j => U i j / total

/-- The per-site expectation formula claimed by the specification:
the sum over all state pairs of J * K * pseudo_reciprocal(P). -/
def claimedSiteExpectation (nstates : ℕ) (P K : Arr) (d v : ℕ → ℚ) :
    ℚ :=
  ∑ i in Finset.range nstates, ∑ j in Finset.range nstates,
    claimedJ nstates P d v i j * K i j * pseudo_reciprocal (P i j)

/-- C3: the expectation the edge pass computes for a non-root edge at a
site equals the claimed sum over state pairs of
J[i,j] * K[i,j] * pseudo_reciprocal(P)[i,j] with J the normalized (or
zeroed) product of outer(head marginal column, tail subtree column)
with P; and the pass contains exactly that entry for the edge. -/
theorem edgeExpectations_formula (getPK : ℕ → ℚ → Arr × Arr)
    (er : ℕ → ℚ) (ep : ℕ → ℕ) (nstates : ℕ) (marg subArrs : ℕ → Arr)
    (v : ℕ) (cs : List PTree) (c : PTree) (hc : c ∈ cs) (site : ℕ) :
    (((v, c.idOf),
        edgeSiteExpectations getPK er ep nstates marg subArrs v c.idOf)
      ∈ edgeExpectations getPK er ep nstates marg subArrs (.node v cs))
    ∧ edgeSiteExpectations getPK er ep nstates marg subArrs v c.idOf site
      = claimedSiteExpectation nstates (getPK (ep c.idOf) (er c.idOf)).1
          (getPK (ep c.idOf) (er c.idOf)).2
          (fun i => marg v i site) (fun i => subArrs c.idOf i site) := by
  constructor
  · rw [edgeExpectations]
    refine List.mem_flatten.mpr
      ⟨_, List.mem_map.mpr ⟨⟨c, hc⟩, List.mem_attach cs ⟨c, hc⟩, rfl⟩, ?_⟩
    exact List.mem_cons_self _ _
  · unfold edgeSiteExpectations siteExpectation claimedSiteExpectation
    have hJ : claimedJ nstates (getPK (ep c.idOf) (er c.idOf)).1
        (fun i => marg v i site) (fun i => subArrs c.idOf i site)
        = normalizeJoint nstates
            (siteJ (getPK (ep c.idOf) (er c.idOf)).1
              (fun i => marg v i site)
              (fun i => subArrs c.idOf i site)) := rfl
    rw [hJ]
    refine Finset.sum_congr rfl fun i _ =>
      Finset.sum_congr rfl fun j _ => ?_
    unfold hada pseudoRecipArr
    rw [mul_assoc]

/-- C3 witness: the edge (0, 1) of a two-node tree is present in the
pass output with its per-site expectation function. -/
theorem edgeExpectations_formula_witness :
    ((0, 1), edgeSiteExpectations (fun _ _ => (identityArr, identityArr))
        (fun _ => 1) (fun _ => 0) 1 (fun _ _ _ => 1) (fun _ _ _ => 1) 0 1)
      ∈ edgeExpectations (fun _ _ => (identityArr, identityArr))
          (fun _ => 1) (fun _ => 0) 1 (fun _ _ _ => 1) (fun _ _ _ => 1)
          (.node 0 [.node 1 []]) :=
  (edgeExpectations_formula (fun _ _ => (identityArr, identityArr))
    (fun _ => 1) (fun _ => 0) 1 (fun _ _ _ => 1) (fun _ _ _ => 1)
    0 [.node 1 []] (.node 1 []) (List.mem_singleton.mpr rfl) 0).1

/-- The marginal value the specification claims for a non-root node
(claim C4): the parent marginal pushed through the transpose
exponential action (expm_tmul), multiplied by the postorder arrays of
all the siblings and by the node's own postorder array,
column-normalized per site. -/
def claimedMarginal (expmTmul : ℕ → ℚ → Arr → Arr) (er : ℕ → ℚ)
    (ep : ℕ → ℕ) (nstates : ℕ) (subArrs : ℕ → Arr) (pm : Arr)
    (siblings : List ℕ) (child : ℕ) : Arr :=
  normalizeCols nstates
    (hada (hada (expmTmul (ep child) (er child) pm)
        ((siblings.map subArrs).foldl hada (fun _ _ => 1)))
      (subArrs child))

/-- C4 (amended): the preorder marginal pass records for the root the
normalized prior-weighted root array, and for each child c of a node
with computed marginal m exactly nodeMarginal(m, c): the parent
marginal pushed through the transposed transition matrix (expm_mul
applied to the identity), multiplied by the child's own postorder
subtree array ONLY -- the siblings' postorder arrays are not
multiplied in -- then column-normalized per site. -/
theorem marginalPass_values (f : ℕ → ℚ → Arr → Arr) (er : ℕ → ℚ)
    (ep : ℕ → ℕ) (nstates : ℕ) (distn : ℕ → ℚ) (subArrs : ℕ → Arr)
    (tr : PTree) (m : Arr) (v : ℕ) (cs : List PTree) (c : PTree)
    (hc : c ∈ cs) :
    (tr.idOf, rootMarginal nstates distn subArrs tr.idOf)
        ∈ marginalPass f er ep nstates distn subArrs tr
    ∧ (c.idOf, nodeMarginal f er ep nstates subArrs m c.idOf)
        ∈ marginalPassAux f er ep nstates subArrs (.node v cs) m := by
  constructor
  · cases tr with
    | node w ds =>
        rw [marginalPass, marginalPassAux]
        exact List.mem_cons_self _ _
  · rw [marginalPassAux]
    refine List.mem_cons_of_mem _ (List.mem_flatten.mpr
      ⟨_, List.mem_map.mpr ⟨⟨c, hc⟩, List.mem_attach cs ⟨c, hc⟩, rfl⟩, ?_⟩)
    cases c with
    | node w ds =>
        rw [marginalPassAux]
        exact List.mem_cons_self _ _

/-- C4 witness: on a one-child tree the pass contains the nodeMarginal
entry for the child. -/
theorem marginalPass_values_witness :
    ((0 : ℕ), rootMarginal 1 (fun _ => 1) (fun _ _ _ => 1) 0)
        ∈ marginalPass (fun _ _ B => B) (fun _ => 1) (fun _ => 0) 1
            (fun _ => 1) (fun _ _ _ => 1) (.node 0 [.node 1 []]) :=
  (marginalPass_values (fun _ _ B => B) (fun _ => 1) (fun _ => 0) 1
    (fun _ => 1) (fun _ _ _ => 1) (.node 0 [.node 1 []])
    (fun _ _ => 1) 0 [.node 1 []] (.node 1 [])
    (List.mem_singleton.mpr rfl)).1

/-- Concrete postorder arrays for the C4 counterexample: node 2 has the
column (1, 0), every other node the all-ones array. -/
def cexSubArrs : ℕ → Arr :=
  fun nd => if nd = 2
    then (fun i _ => if i = 0 then 1 else 0)
    else fun _ _ => 1

/-- Concrete tree for the C4 counterexample: a root with two leaves. -/
def cexTree : PTree := .node 0 [.node 1 [], .node 2 []]

/-- C4 counterexample: with the identity as the exponential action on a
two-state, one-site scene, the marginal the pass produces for node 1 is
(1/2, 1/2) but the claimed sibling-inclusive formula gives (1, 0) --
the claim, as stated, fails at this input. -/
theorem marginal_siblings_cex :
    lookupArr (marginalPass (fun _ _ B => B) (fun _ => 1) (fun _ => 0) 2
        (fun _ => 1/2) cexSubArrs cexTree) 1 0 0
      ≠ claimedMarginal (fun _ _ B => B) (fun _ => 1) (fun _ => 0) 2
          cexSubArrs (rootMarginal 2 (fun _ => 1/2) cexSubArrs 0)
          [2] 1 0 0 := by
  norm_num [marginalPass, marginalPassAux, cexTree, cexSubArrs,
    lookupArr, rootMarginal, nodeMarginal, claimedMarginal,
    normalizeCols, hada, pseudo_reciprocal, identityArr, PTree.idOf,
    List.attach, List.attachWith, List.pmap, List.find?,
    Finset.sum_range_succ, Finset.sum_range_one]

theorem foldl_mul_init (g : ℕ → ℚ) :
    ∀ (l : List ℕ) (a : ℚ),
      l.foldl (fun acc x => acc * g x) a
        = a * l.foldl (fun acc x => acc * g x) 1 := by
  intro l
  induction l with
  | nil => intro a; simp
  | cons x xs ih =>
      intro a
      simp only [List.foldl_cons]
      rw [ih (a * g x), ih (1 * g x)]
      ring

theorem foldl_mul_indicator (g : ℕ → ℚ) (hg : ∀ x, g x = 0 ∨ g x = 1) :
    ∀ l : List ℕ,
      l.foldl (fun acc x => acc * g x) 1
        = if ∀ x ∈ l, g x = 1 then 1 else 0 := by
  intro l
  induction l with
  | nil => simp
  | cons x xs ih =>
      simp only [List.foldl_cons, one_mul]
      rw [foldl_mul_init g xs (g x), ih]
      rcases hg x with h0 | h1
      · rw [h0, zero_mul]
        rw [if_neg]
        intro hall
        have := hall x (List.mem_cons_self x xs)
        rw [h0] at this
        exact absurd this (by norm_num)
      · rw [h1, one_mul]
        by_cases hxs : ∀ y ∈ xs, g y = 1
        · rw [if_pos hxs, if_pos]
          intro y hy
          rcases List.mem_cons.mp hy with h | h
          · rw [h]; exact h1
          · exact hxs y h
        · rw [if_neg hxs, if_neg]
          intro hall
          exact hxs fun y hy => hall y (List.mem_cons_of_mem x hy)

theorem indicatorEntry_zero_or_one (k : ℕ) (obs : ℤ) (j : ℕ) :
    indicatorEntry k obs j = 0 ∨ indicatorEntry k obs j = 1 := by
  unfold indicatorEntry
  split_ifs <;> simp

theorem indicatorEntry_eq_one_iff (k : ℕ) (obs : ℤ) (j : ℕ) :
    indicatorEntry k obs j = 1 ↔ (effRow k obs = k ∨ j = effRow k obs) := by
  unfold indicatorEntry
  split_ifs with h1 h2
  · simp [h1]
  · simp [h1, h2]
  · simp [h1, h2]

/-- The indicator predicate exactly as claim C5 words it: every local
observable either has observation -1 (unobserved) or has observation
equal to the component of the state along that observable's axis. -/
def claimedIndicator (shape : List ℕ)
    (observableNodes observableAxes : List ℕ)
    (iidObservations : List (List ℤ)) (node : ℕ) : Arr :=
  fun stateFlat site =>
    if ∀ idx ∈ localObservables node observableNodes,
        (iidObservations.getD site []).getD idx 0 = -1
        ∨ (iidObservations.getD site []).getD idx 0
            = (stateComp shape (observableAxes.getD idx 0) stateFlat : ℤ)
    then 1 else 0

/-- C5 (amended): on observation values in the indexable range
-(k+1)..k of the (k+1)-row indicator table, the entry of
create_indicator_array is 1 exactly when every local observable selects
the all-ones row (its effective numpy row index equals k, which -1 does
via negative indexing, and the literal value k does as well) or matches
the state's component along its axis; entries are always 0 or 1, -1
always selects the all-ones row, and a node with no local observables
gets an all-ones array. -/
theorem create_indicator_array_spec (shape : List ℕ)
    (observableNodes observableAxes : List ℕ)
    (iidObservations : List (List ℤ)) (node stateFlat site : ℕ)
    (_hvalid : ∀ idx ∈ localObservables node observableNodes,
      -((shape.getD (observableAxes.getD idx 0) 1 : ℤ) + 1)
          ≤ (iidObservations.getD site []).getD idx 0
      ∧ (iidObservations.getD site []).getD idx 0
          ≤ (shape.getD (observableAxes.getD idx 0) 1 : ℤ)) :
    (create_indicator_array shape observableNodes observableAxes
        iidObservations node stateFlat site
      = if ∀ idx ∈ localObservables node observableNodes,
            effRow (shape.getD (observableAxes.getD idx 0) 1)
                ((iidObservations.getD site []).getD idx 0)
              = shape.getD (observableAxes.getD idx 0) 1
            ∨ stateComp shape (observableAxes.getD idx 0) stateFlat
              = effRow (shape.getD (observableAxes.getD idx 0) 1)
                  ((iidObservations.getD site []).getD idx 0)
        then 1 else 0)
    ∧ (create_indicator_array shape observableNodes observableAxes
          iidObservations node stateFlat site = 0
      ∨ create_indicator_array shape observableNodes observableAxes
          iidObservations node stateFlat site = 1)
    ∧ (∀ k : ℕ, effRow k (-1) = k)
    ∧ (localObservables node observableNodes = [] →
        create_indicator_array shape observableNodes observableAxes
          iidObservations node stateFlat site = 1) := by
  have hg : ∀ idx, indicatorEntry
      (shape.getD (observableAxes.getD idx 0) 1)
      ((iidObservations.getD site []).getD idx 0)
      (stateComp shape (observableAxes.getD idx 0) stateFlat) = 0
    ∨ indicatorEntry (shape.getD (observableAxes.getD idx 0) 1)
      ((iidObservations.getD site []).getD idx 0)
      (stateComp shape (observableAxes.getD idx 0) stateFlat) = 1 :=
    fun idx => indicatorEntry_zero_or_one _ _ _
  have hmain : create_indicator_array shape observableNodes
      observableAxes iidObservations node stateFlat site
      = if ∀ idx ∈ localObservables node observableNodes,
          indicatorEntry (shape.getD (observableAxes.getD idx 0) 1)
            ((iidObservations.getD site []).getD idx 0)
            (stateComp shape (observableAxes.getD idx 0) stateFlat) = 1
        then 1 else 0 := by
    unfold create_indicator_array
    exact foldl_mul_indicator _ hg _
  refine ⟨?_, ?_, ?_, ?_⟩
  · rw [hmain]
    refine if_congr ?_ rfl rfl
    exact forall₂_congr fun idx _ => indicatorEntry_eq_one_iff _ _ _
  · rw [hmain]
    split_ifs <;> simp
  · intro k
    unfold effRow
    rw [if_pos (by norm_num)]
    omega
  · intro hempty
    unfold create_indicator_array
    rw [hempty]
    rfl

/-- C5 witness: a valid scene with one observable at node 0 observing
value 1 on a two-state axis; the entry at the flat state 1 (whose
component is 1) is 1. -/
theorem create_indicator_array_spec_witness :
    create_indicator_array [2] [0] [0] [[1]] 0 1 0 = 1 := by
  have h := create_indicator_array_spec [2] [0] [0] [[1]] 0 1 0
    (by
      intro idx hidx
      norm_num [localObservables] at hidx
      subst hidx
      norm_num)
  rw [h.1]
  rw [if_pos]
  intro idx hidx
  norm_num [localObservables] at hidx
  subst hidx
  right
  norm_num [stateComp, strideAfter, effRow]

/-- C5 counterexample: an observation value equal to the axis size k
(here 2) selects the all-ones row of the indicator table exactly as -1
does, so create_indicator_array reports support (1) at a state whose
component differs from the observation, while the claimed predicate
(observation is -1 or equals the component) gives 0: the claim, as
stated, fails at this input. -/
theorem create_indicator_array_cex :
    create_indicator_array [2] [0] [0] [[2]] 0 0 0
      ≠ claimedIndicator [2] [0] [0] [[2]] 0 0 0 := by
  have hcode : create_indicator_array [2] [0] [0] [[2]] 0 0 0 = 1 := by
    have h2n : ((2 : ℤ)).toNat = 2 := rfl
    norm_num [create_indicator_array, localObservables, indicatorEntry,
      effRow, stateComp, strideAfter, List.range_succ, h2n]
  have hclaim : claimedIndicator [2] [0] [0] [[2]] 0 0 0 = 0 := by
    rw [claimedIndicator, if_neg]
    intro hall
    have := hall 0 (by norm_num [localObservables, List.range_succ])
    norm_num [stateComp, strideAfter] at this
  rw [hcode, hclaim]
  norm_num

/-- C1: for every scene, the object process_json_in returns has
feasibility = true exactly when every site's likelihood (the
prior-weighted sum over states of the root's postorder array) is
strictly positive (over the reals this is exactly finiteness of its
log); when feasible the returned expectations table contains, for every
site and every edge, that edge's per-site expectation from the edge
pass; when infeasible, expectations is None; and the sanitized
log-likelihood of every infeasible site is the sentinel 0 rather than
minus infinity. -/
theorem processJsonIn_spec (f : ℕ → ℚ → Arr → Arr)
    (getPK : ℕ → ℚ → Arr × Arr) (er : ℕ → ℚ) (ep : ℕ → ℕ)
    (shape : List ℕ) (oN oA : List ℕ) (obss : List (List ℤ))
    (distn : ℕ → ℚ) (tr : PTree) (log : ℚ → ℚ) :
    ((processJsonIn f getPK er ep shape oN oA obss distn tr).feasibility
        = true
      ↔ ∀ site < obss.length,
          0 < sceneLikelihoods f er ep shape oN oA obss distn tr site)
    ∧ ((processJsonIn f getPK er ep shape oN oA obss distn tr).feasibility
          = true →
        (processJsonIn f getPK er ep shape oN oA obss distn tr).expectations
          = some ((List.range obss.length).map (fun site =>
              (edgeList tr).map (fun e =>
                lookupEdge
                  (sceneEdgeExp f getPK er ep shape oN oA obss distn tr)
                  e site))))
    ∧ ((processJsonIn f getPK er ep shape oN oA obss distn tr).feasibility
          = false →
        (processJsonIn f getPK er ep shape oN oA obss distn tr).expectations
          = none)
    ∧ (∀ table,
        (processJsonIn f getPK er ep shape oN oA obss distn tr).expectations
          = some table →
        ∀ site, site < obss.length →
        ∀ k, k < (edgeList tr).length →
          (table.getD site []).getD k 0
            = lookupEdge
                (sceneEdgeExp f getPK er ep shape oN oA obss distn tr)
                ((edgeList tr).getD k (0, 0)) site)
    ∧ (∀ site,
        ¬ 0 < sceneLikelihoods f er ep shape oN oA obss distn tr site →
        sanitizedLogLikelihoods log
          (sceneLikelihoods f er ep shape oN oA obss distn tr) site = 0) := by
  by_cases hall : (List.range obss.length).all (fun site =>
      decide (0 < sceneLikelihoods f er ep shape oN oA obss distn tr site))
    = true
  · have hJ : processJsonIn f getPK er ep shape oN oA obss distn tr
        = { feasibility := true
            expectations := some ((List.range obss.length).map (fun site =>
              (edgeList tr).map (fun e =>
                lookupEdge
                  (sceneEdgeExp f getPK er ep shape oN oA obss distn tr)
                  e site))) } := by
      unfold processJsonIn
      rw [if_pos hall]
    rw [hJ]
    refine ⟨?_, fun _ => rfl, ?_, ?_, ?_⟩
    · simp only [true_iff]
      intro site hsite
      have := List.all_eq_true.mp hall site (List.mem_range.mpr hsite)
      exact of_decide_eq_true this
    · intro hfalse
      exact absurd hfalse (by simp)
    · intro table htable site hsite k hk
      injection htable with htable
      rw [← htable]
      have h1 : site < ((List.range obss.length).map (fun site =>
          (edgeList tr).map (fun e =>
            lookupEdge (sceneEdgeExp f getPK er ep shape oN oA obss distn tr)
              e site))).length := by
        simpa using hsite
      rw [List.getD_eq_getElem _ _ h1, List.getElem_map, List.getElem_range]
      have h2 : k < ((edgeList tr).map (fun e =>
          lookupEdge (sceneEdgeExp f getPK er ep shape oN oA obss distn tr)
            e site)).length := by
        simpa using hk
      rw [List.getD_eq_getElem _ _ h2, List.getElem_map]
      congr 2
      exact (List.getD_eq_getElem _ _ hk).symm
    · intro site hsite
      unfold sanitizedLogLikelihoods
      rw [if_neg hsite]
  · have hJ : processJsonIn f getPK er ep shape oN oA obss distn tr
        = { feasibility := false, expectations := none } := by
      unfold processJsonIn
      rw [if_neg hall]
    rw [hJ]
    refine ⟨?_, ?_, fun _ => rfl, ?_, ?_⟩
    · simp only [Bool.false_eq_true, false_iff]
      intro hpos
      refine hall (List.all_eq_true.mpr ?_)
      intro site hsite
      exact decide_eq_true (hpos site (List.mem_range.mp hsite))
    · intro htrue
      exact absurd htrue (by simp)
    · intro table htable
      exact absurd htable (by simp)
    · intro site hsite
      unfold sanitizedLogLikelihoods
      rw [if_neg hsite]

/-- C1 witness: a one-node, one-site scene with no observables and a
unit prior; the single site's likelihood is 1, so the returned object
is feasible. -/
theorem processJsonIn_spec_witness :
    (processJsonIn (fun _ _ B => B)
        (fun _ _ => (identityArr, identityArr)) (fun _ => 1) (fun _ => 0)
        [1] [] [] [[]] (fun _ => 1) (.node 0 [])).feasibility = true := by
  have h := processJsonIn_spec (fun _ _ B => B)
    (fun _ _ => (identityArr, identityArr)) (fun _ => 1) (fun _ => 0)
    [1] [] [] [[]] (fun _ => 1) (.node 0 []) (fun x => x)
  refine h.1.mpr ?_
  intro site hsite
  have hsite0 : site = 0 := by simpa using hsite
  subst hsite0
  norm_num [sceneLikelihoods, sceneSubArrs, sceneNStates, rootLikelihoods,
    lookupArr, subtreeMapList, subtreeArr, create_indicator_array,
    localObservables, PTree.idOf, List.find?, Finset.sum_range_one]

end CtmcTree
